import Mathlib

/-!
# Verification of the `parari` parallel-execution core

A shallow embedding, in Lean, of the pure content of the `parari`
repository's core components, together with proofs of (or counterexamples
to) the specification's claims about them.

Conventions of the embedding:

* Rust `String` values are embedded as `List Char` (the sources only ever
  slice them at ASCII status codes, where byte indices and character
  indices coincide).
* File-system and subprocess effects are made explicit: functions take
  the data the effectful code would have read (directory listings, child
  process output events, porcelain status text) as arguments, and fallible
  operations return `Option`/`Except`.
* Field and function names follow the Rust sources
  (`src/git/merge.rs`, `src/git/worktree.rs`, `src/executor/*.rs`,
  `src/domain/task.rs`, `src/config/paths.rs`) wherever Lean allows.
-/

namespace Parari

/-! ## Rust string-splitting semantics

`str::lines` in Rust splits at every `'\n'`, does not produce a final
empty line for a trailing newline, and strips one trailing `'\r'` from
each produced line.  The executor-result constructors
(`ExecutionResult::success` / `failure`) use it, so we model it exactly. -/

/-- Split a character list at every newline character, keeping a final
empty segment for a trailing newline (raw splitting, first stage of
Rust's `str::lines`). -/
def splitNl : List Char → List (List Char)
  | [] => [[]]
  | c :: cs =>
    if c = '\n' then [] :: splitNl cs
    else
      match splitNl cs with
      | [] => [[c]]
      | l :: ls => (c :: l) :: ls

/-- Strip one trailing carriage return (the `\r` of a `\r\n` line
ending), as Rust's `str::lines` does to each newline-terminated line. -/
def stripCr (l : List Char) : List Char :=
  match l.getLast? with
  | some '\r' => l.dropLast
  | _ => l

/-- Post-process the raw split: every segment except the last was
terminated by `'\n'` and has a trailing `'\r'` stripped; the final
segment is the empty leftover of a trailing newline (dropped) or an
unterminated last line (kept verbatim — a bare final `'\r'` is content,
not a line ending). -/
def stripSegs : List (List Char) → List (List Char)
  | [] => []
  | [l] => if l = [] then [] else [l]
  | l :: rest => stripCr l :: stripSegs rest

/-- Rust `str::lines`: split on `'\n'`, drop the final empty segment
produced by a trailing newline (or by the empty string), and strip one
trailing `'\r'` from each newline-terminated line. -/
def rustLines (s : List Char) : List (List Char) :=
  stripSegs (splitNl s)

/-- Join a list of lines with single newline separators. -/
def joinNl (ls : List (List Char)) : List Char :=
  match ls with
  | [] => []
  | l :: rest => l ++ (rest.map (fun x => '\n' :: x)).flatten

example : rustLines "a\nc".toList = ["a".toList, "c".toList] := by decide
example : rustLines "a\n".toList = ["a".toList] := by decide
example : rustLines "".toList = [] := by decide
example : rustLines "\n".toList = [[]] := by decide
example : joinNl ["a".toList, "c".toList] = "a\nc".toList := by decide
example : rustLines "a\r\nb".toList = ["a".toList, "b".toList] := by decide
example : rustLines "a\r".toList = ["a\r".toList] := by decide

/-! ## Change summaries (`src/git/merge.rs`) -/

/-- Embeds `ChangeSummary` from `src/git/merge.rs`. -/
structure ChangeSummary where
  files_added : Nat
  files_modified : Nat
  files_deleted : Nat
  changed_files : List (List Char)
  deriving DecidableEq, Repr

/-- The porcelain status codes that `get_change_summary` counts as
additions: `??`, `A `, ` A`. -/
def isAddedCode (code : List Char) : Bool :=
  code = ['?', '?'] || code = ['A', ' '] || code = [' ', 'A']

/-- The porcelain status codes that `get_change_summary` counts as
deletions: `D `, ` D`. -/
def isDeletedCode (code : List Char) : Bool :=
  code = ['D', ' '] || code = [' ', 'D']

/-- One iteration of the loop body of `get_change_summary`
(`src/git/merge.rs`, lines 124–144): skip lines shorter than 3,
otherwise record the file name (everything past index 3) and bump the
counter selected by the two-character status code. -/
def summaryStep (acc : ChangeSummary) (line : List Char) : ChangeSummary :=
  if line.length < 3 then acc
  else
    let status_code := line.take 2
    let file_name := line.drop 3
    let acc := { acc with changed_files := acc.changed_files ++ [file_name] }
    if isAddedCode status_code then
      { acc with files_added := acc.files_added + 1 }
    else if isDeletedCode status_code then
      { acc with files_deleted := acc.files_deleted + 1 }
    else
      { acc with files_modified := acc.files_modified + 1 }

/-- Embeds `get_change_summary` from `src/git/merge.rs`.  The first
argument embeds the `_original: &Path` parameter, which the source never
reads; the second is the text that `git status --porcelain` printed in
the worktree (the only data the function consumes). -/
def get_change_summary (original : List Char) (statusOutput : List Char) :
    ChangeSummary :=
  let _ := original
  (rustLines statusOutput).foldl summaryStep
    { files_added := 0, files_modified := 0, files_deleted := 0
      changed_files := [] }

example :
    get_change_summary "orig".toList
      "?? new.txt\n M mod.txt\nA  add.txt\n D del.txt\nR  old -> new\n".toList =
    { files_added := 2, files_modified := 2, files_deleted := 1
      changed_files := ["new.txt".toList, "mod.txt".toList, "add.txt".toList,
                        "del.txt".toList, "old -> new".toList] } := by decide

/-- A status code cannot be counted both as an addition and as a
deletion: the two code sets are disjoint. -/
theorem isAddedCode_isDeletedCode (c : List Char) :
    isAddedCode c = true → isDeletedCode c = false := by
  simp only [isAddedCode, isDeletedCode, Bool.or_eq_true, decide_eq_true_eq]
  rintro ((rfl | rfl) | rfl) <;> decide

/-- Behaviour of the `get_change_summary` loop from an arbitrary
accumulator: the lines of length at least 3 are kept in order, and each
kept line bumps exactly the counter selected by its status code. -/
theorem summary_foldl_spec (ls : List (List Char)) (acc : ChangeSummary) :
    (ls.foldl summaryStep acc).changed_files
      = acc.changed_files
        ++ (ls.filter (fun l => 3 ≤ l.length)).map (fun l => l.drop 3)
  ∧ (ls.foldl summaryStep acc).files_added
      = acc.files_added
        + (ls.filter (fun l => 3 ≤ l.length)).countP
            (fun l => isAddedCode (l.take 2))
  ∧ (ls.foldl summaryStep acc).files_deleted
      = acc.files_deleted
        + (ls.filter (fun l => 3 ≤ l.length)).countP
            (fun l => !isAddedCode (l.take 2) && isDeletedCode (l.take 2))
  ∧ (ls.foldl summaryStep acc).files_modified
      = acc.files_modified
        + (ls.filter (fun l => 3 ≤ l.length)).countP
            (fun l => !isAddedCode (l.take 2) && !isDeletedCode (l.take 2)) := by
  induction ls generalizing acc with
  | nil => simp
  | cons l rest ih =>
    by_cases hshort : l.length < 3
    · have hstep : summaryStep acc l = acc := by
        simp [summaryStep, hshort]
      have hfilt : (3 ≤ l.length) = False := by
        simp only [eq_iff_iff, iff_false]; omega
      simp [List.foldl_cons, hstep, List.filter_cons, hfilt, ih]
    · have hlen : 3 ≤ l.length := by omega
      have hfilt : decide (3 ≤ l.length) = true := by simpa using hlen
      by_cases hadd : isAddedCode (l.take 2) = true
      · have hstep : summaryStep acc l =
            { acc with
              changed_files := acc.changed_files ++ [l.drop 3]
              files_added := acc.files_added + 1 } := by
          simp [summaryStep, hshort, hadd]
        rcases ih (summaryStep acc l) with ⟨h1, h2, h3, h4⟩
        refine ⟨?_, ?_, ?_, ?_⟩
        · rw [List.foldl_cons, h1, hstep]
          simp [List.filter_cons, hfilt]
        · rw [List.foldl_cons, h2, hstep]
          simp [List.filter_cons, hfilt, List.countP_cons, hadd]
          omega
        · rw [List.foldl_cons, h3, hstep]
          simp [List.filter_cons, hfilt, List.countP_cons, hadd]
        · rw [List.foldl_cons, h4, hstep]
          simp [List.filter_cons, hfilt, List.countP_cons, hadd]
      · by_cases hdel : isDeletedCode (l.take 2) = true
        · have hstep : summaryStep acc l =
              { acc with
                changed_files := acc.changed_files ++ [l.drop 3]
                files_deleted := acc.files_deleted + 1 } := by
            simp [summaryStep, hshort, hadd, hdel]
          rcases ih (summaryStep acc l) with ⟨h1, h2, h3, h4⟩
          refine ⟨?_, ?_, ?_, ?_⟩
          · rw [List.foldl_cons, h1, hstep]
            simp [List.filter_cons, hfilt]
          · rw [List.foldl_cons, h2, hstep]
            simp [List.filter_cons, hfilt, List.countP_cons, hadd]
          · rw [List.foldl_cons, h3, hstep]
            simp [List.filter_cons, hfilt, List.countP_cons, hadd, hdel]
            omega
          · rw [List.foldl_cons, h4, hstep]
            simp [List.filter_cons, hfilt, List.countP_cons, hadd, hdel]
        · have hstep : summaryStep acc l =
              { acc with
                changed_files := acc.changed_files ++ [l.drop 3]
                files_modified := acc.files_modified + 1 } := by
            simp [summaryStep, hshort, hadd, hdel]
          rcases ih (summaryStep acc l) with ⟨h1, h2, h3, h4⟩
          refine ⟨?_, ?_, ?_, ?_⟩
          · rw [List.foldl_cons, h1, hstep]
            simp [List.filter_cons, hfilt]
          · rw [List.foldl_cons, h2, hstep]
            simp [List.filter_cons, hfilt, List.countP_cons, hadd]
          · rw [List.foldl_cons, h3, hstep]
            simp [List.filter_cons, hfilt, List.countP_cons, hadd, hdel]
          · rw [List.foldl_cons, h4, hstep]
            simp [List.filter_cons, hfilt, List.countP_cons, hadd, hdel]
            omega

/-- Any Boolean predicate pair partitions a list into three disjoint
classes whose counts sum to the length. -/
theorem countP_three_way (l : List α) (p q : α → Bool) :
    l.countP p + l.countP (fun x => !p x && q x)
      + l.countP (fun x => !p x && !q x) = l.length := by
  induction l with
  | nil => simp
  | cons x rest ih =>
    by_cases hp : p x = true <;> by_cases hq : q x = true <;>
      simp [List.countP_cons, hp, hq] <;> omega

/-- C6: `change_summary` classifies every porcelain status line of length
at least 3 by its first two characters — `??`, `A `, ` A` count as added;
`D `, ` D` count as deleted; any other code counts as modified — lines
shorter than 3 characters are ignored, and `changed_files` preserves the
order of the input lines. -/
theorem change_summary_classification (original status : List Char) :
    (get_change_summary original status).changed_files
      = ((rustLines status).filter (fun l => 3 ≤ l.length)).map
          (fun l => l.drop 3)
  ∧ (get_change_summary original status).files_added
      = ((rustLines status).filter (fun l => 3 ≤ l.length)).countP
          (fun l => isAddedCode (l.take 2))
  ∧ (get_change_summary original status).files_deleted
      = ((rustLines status).filter (fun l => 3 ≤ l.length)).countP
          (fun l => isDeletedCode (l.take 2))
  ∧ (get_change_summary original status).files_modified
      = ((rustLines status).filter (fun l => 3 ≤ l.length)).countP
          (fun l => !isAddedCode (l.take 2) && !isDeletedCode (l.take 2)) := by
  have h := summary_foldl_spec (rustLines status)
    { files_added := 0, files_modified := 0, files_deleted := 0
      changed_files := [] }
  rcases h with ⟨h1, h2, h3, h4⟩
  refine ⟨?_, ?_, ?_, ?_⟩
  · simpa [get_change_summary] using h1
  · simpa [get_change_summary] using h2
  · have hcong : ((rustLines status).filter (fun l => 3 ≤ l.length)).countP
        (fun l => !isAddedCode (l.take 2) && isDeletedCode (l.take 2))
      = ((rustLines status).filter (fun l => 3 ≤ l.length)).countP
        (fun l => isDeletedCode (l.take 2)) := by
      apply List.countP_congr
      intro l _
      by_cases hadd : isAddedCode (l.take 2) = true
      · have := isAddedCode_isDeletedCode _ hadd
        simp [hadd, this]
      · simp [hadd]
    rw [← hcong]
    simpa [get_change_summary] using h3
  · simpa [get_change_summary] using h4

/-- C7: the counts of a `ChangeSummary` partition the parsed lines:
`files_added + files_modified + files_deleted = changed_files.length`. -/
theorem change_summary_counts_partition (original status : List Char) :
    (get_change_summary original status).files_added
      + (get_change_summary original status).files_modified
      + (get_change_summary original status).files_deleted
      = (get_change_summary original status).changed_files.length := by
  rcases summary_foldl_spec (rustLines status)
      { files_added := 0, files_modified := 0, files_deleted := 0
        changed_files := [] } with ⟨h1, h2, h3, h4⟩
  have e1 : (get_change_summary original status).changed_files.length
      = ((rustLines status).filter (fun l => 3 ≤ l.length)).length := by
    simpa [get_change_summary] using congrArg List.length h1
  rw [e1]
  have e2 := h2
  have e3 := h3
  have e4 := h4
  simp only [get_change_summary, Nat.zero_add] at e2 e3 e4 ⊢
  rw [e2, e3, e4]
  have := countP_three_way ((rustLines status).filter (fun l => 3 ≤ l.length))
    (fun l => isAddedCode (l.take 2)) (fun l => isDeletedCode (l.take 2))
  omega

/-- C10: `get_change_summary` does not read its first (original-path)
argument; the summary is determined solely by the worktree's porcelain
status output. -/
theorem change_summary_ignores_original (p1 p2 status : List Char) :
    get_change_summary p1 status = get_change_summary p2 status := rfl

/-! ## The executor layer (`src/executor/traits.rs` and adapters)

Effects are made explicit: an I/O failure of `spawn`/pipe reads is an
`IoError` value, a terminated child is an `ExitStatus` together with the
sequence of lines the two line-buffered readers delivered, in arrival
order and already newline-stripped (what `tokio`'s `lines()` yields). -/

/-- An I/O error from spawning a child or reading its pipes. -/
inductive IoError where
  | ioErr : IoError
  deriving DecidableEq, Repr

/-- How a child process terminated: with an exit code, or by signal
(in which case Rust's `ExitStatus::code()` is `None`). -/
inductive ExitStatus where
  | exited (code : Int) : ExitStatus
  | signaled : ExitStatus
  deriving DecidableEq, Repr

/-- Rust `ExitStatus::success()`: true iff the process exited with
code zero. -/
def ExitStatus.success : ExitStatus → Bool
  | .exited c => c == 0
  | .signaled => false

/-- Rust `ExitStatus::code()`. -/
def ExitStatus.code : ExitStatus → Option Int
  | .exited c => some c
  | .signaled => none

/-- Embeds `OutputLine` from `src/executor/traits.rs`. -/
inductive OutputLine where
  | stdout (s : List Char) : OutputLine
  | stderr (s : List Char) : OutputLine
  deriving DecidableEq, Repr

/-- Embeds `ExecutionResult` from `src/executor/traits.rs`. -/
structure ExecutionResult where
  executor_name : List Char
  success : Bool
  stdout : List Char
  stderr : List Char
  output_lines : List OutputLine
  exit_code : Option Int
  deriving DecidableEq, Repr

/-- Embeds `ExecutionResult::success` (`src/executor/traits.rs`,
lines 38–51): every Rust-line of `stdout` becomes a `Stdout` output
line; `stderr` is empty, the flag is true and the exit code zero. -/
def ExecutionResult.mkSuccess (executor_name stdout : List Char) :
    ExecutionResult :=
  { executor_name := executor_name
    success := true
    stdout := stdout
    stderr := []
    output_lines := (rustLines stdout).map OutputLine.stdout
    exit_code := some 0 }

/-- Embeds `ExecutionResult::failure` (`src/executor/traits.rs`,
lines 54–71). -/
def ExecutionResult.mkFailure (executor_name stderr : List Char)
    (exit_code : Option Int) : ExecutionResult :=
  { executor_name := executor_name
    success := false
    stdout := []
    stderr := stderr
    output_lines := (rustLines stderr).map OutputLine.stderr
    exit_code := exit_code }

/-- One line delivered by either of the child's pipes, in arrival
order. -/
inductive RawEvent where
  | out (s : List Char) : RawEvent
  | err (s : List Char) : RawEvent
  deriving DecidableEq, Repr

/-- The accumulation the capture loop performs on one side's joined
string: a separating newline is pushed only when the accumulated content
is non-empty (`src/executor/traits.rs`, lines 125–128 and friends). -/
def pushLine (content line : List Char) : List Char :=
  if content = [] then line else content ++ '\n' :: line

/-- The stdout payloads of an event sequence, in order. -/
def outPayloads (events : List RawEvent) : List (List Char) :=
  events.filterMap fun e =>
    match e with
    | .out s => some s
    | .err _ => none

/-- The stderr payloads of an event sequence, in order. -/
def errPayloads (events : List RawEvent) : List (List Char) :=
  events.filterMap fun e =>
    match e with
    | .out _ => none
    | .err s => some s

/-- The `OutputLine` record of one arrival event. -/
def RawEvent.toOutputLine : RawEvent → OutputLine
  | .out s => .stdout s
  | .err s => .stderr s

/-- The loop of `execute_with_ordered_output`
(`src/executor/traits.rs`, lines 116–182) applied to a given arrival
sequence and exit status: every event is appended to `output_lines`
tagged with its source, and folded into its own side's joined string
with `pushLine`. -/
def captureRun (events : List RawEvent) (status : ExitStatus)
    (executor_name : List Char) : ExecutionResult :=
  { executor_name := executor_name
    success := status.success
    stdout := (outPayloads events).foldl pushLine []
    stderr := (errPayloads events).foldl pushLine []
    output_lines := events.map RawEvent.toOutputLine
    exit_code := status.code }

/-- Embeds `execute_with_ordered_output` from `src/executor/traits.rs`:
a spawn or read failure is returned as the error, otherwise the capture
loop runs to completion and the child is waited on. -/
def execute_with_ordered_output
    (spawn : Except IoError (List RawEvent × ExitStatus))
    (executor_name : List Char) : Except IoError ExecutionResult :=
  match spawn with
  | .error e => .error e
  | .ok (events, status) => .ok (captureRun events status executor_name)

/-- The payloads of the `Stdout` variants of a list of output lines, in
order (the projection the specification speaks about). -/
def projStdout (ls : List OutputLine) : List (List Char) :=
  ls.filterMap fun l =>
    match l with
    | .stdout s => some s
    | .stderr _ => none

/-- The payloads of the `Stderr` variants, in order. -/
def projStderr (ls : List OutputLine) : List (List Char) :=
  ls.filterMap fun l =>
    match l with
    | .stdout _ => none
    | .stderr s => some s

theorem projStdout_map_toOutputLine (events : List RawEvent) :
    projStdout (events.map RawEvent.toOutputLine) = outPayloads events := by
  induction events with
  | nil => rfl
  | cons e rest ih =>
    cases e with
    | out s =>
      simpa [projStdout, outPayloads, RawEvent.toOutputLine,
        List.filterMap_cons] using ih
    | err s =>
      simpa [projStdout, outPayloads, RawEvent.toOutputLine,
        List.filterMap_cons] using ih

theorem projStderr_map_toOutputLine (events : List RawEvent) :
    projStderr (events.map RawEvent.toOutputLine) = errPayloads events := by
  induction events with
  | nil => rfl
  | cons e rest ih =>
    cases e with
    | out s =>
      simpa [projStderr, errPayloads, RawEvent.toOutputLine,
        List.filterMap_cons] using ih
    | err s =>
      simpa [projStderr, errPayloads, RawEvent.toOutputLine,
        List.filterMap_cons] using ih

theorem foldl_pushLine_of_ne (ls : List (List Char)) (c : List Char)
    (hc : c ≠ []) :
    ls.foldl pushLine c = c ++ (ls.map (fun l => '\n' :: l)).flatten := by
  induction ls generalizing c with
  | nil => simp
  | cons l rest ih =>
    have h1 : pushLine c l = c ++ '\n' :: l := by simp [pushLine, hc]
    have h2 : c ++ '\n' :: l ≠ [] := by simp
    rw [List.foldl_cons, h1, ih _ h2]
    simp

/-- The joined string a capture side accumulates is the newline-join of
that side's lines after the leading run of empty lines: while the
accumulated content is still empty, `pushLine` inserts no separator, so
leading empty lines leave no trace. -/
theorem foldl_pushLine_nil (ls : List (List Char)) :
    ls.foldl pushLine [] = joinNl (ls.dropWhile List.isEmpty) := by
  induction ls with
  | nil => rfl
  | cons l rest ih =>
    rw [List.foldl_cons]
    by_cases hl : l = []
    · subst hl
      have h0 : pushLine ([] : List Char) [] = [] := rfl
      rw [h0, ih]
      congr 1
    · have h1 : pushLine [] l = l := by simp [pushLine]
      rw [h1, foldl_pushLine_of_ne rest l hl]
      have h2 : (l :: rest).dropWhile List.isEmpty = l :: rest := by
        rw [List.dropWhile_cons]
        simp [hl]
      rw [h2]
      rfl

/-- Embeds the error enum of `src/error.rs` (the variants the executor
and version-control layers produce). -/
inductive Error where
  | workingDirectoryNotFound (path : List Char) : Error
  | io (e : IoError) : Error
  | gitCommand (message : List Char) : Error
  | notGitRepository (path : List Char) : Error
  | noExecutorsAvailable : Error
  deriving DecidableEq, Repr

/-- Embeds `ClaudeExecutor::execute` (`src/executor/claude.rs`,
lines 33–48): reject a missing working directory, then delegate to the
interleaved-capture helper, converting its I/O error via `?`. -/
def claudeExecute (working_dir : List Char) (cwdExists : Bool)
    (spawn : Except IoError (List RawEvent × ExitStatus)) :
    Except Error ExecutionResult :=
  if !cwdExists then .error (.workingDirectoryNotFound working_dir)
  else
    match execute_with_ordered_output spawn "claude".toList with
    | .ok r => .ok r
    | .error e => .error (.io e)

/-- Embeds `GeminiExecutor::execute` (`src/executor/gemini.rs`), which
differs from the claude adapter only in the argv recipe and name. -/
def geminiExecute (working_dir : List Char) (cwdExists : Bool)
    (spawn : Except IoError (List RawEvent × ExitStatus)) :
    Except Error ExecutionResult :=
  if !cwdExists then .error (.workingDirectoryNotFound working_dir)
  else
    match execute_with_ordered_output spawn "gemini".toList with
    | .ok r => .ok r
    | .error e => .error (.io e)

/-- Embeds `CodexExecutor::execute` (`src/executor/codex.rs`): reject a
missing working directory, run the child with `output()` (whole-buffer
capture, no interleaving), and return `Ok` both for zero and non-zero
exit.  The record construction in the source provides no `output_lines`
field; it is embedded as the empty list. -/
def codexExecute (working_dir : List Char) (cwdExists : Bool)
    (outcome : Except IoError (List Char × List Char × ExitStatus)) :
    Except Error ExecutionResult :=
  if !cwdExists then .error (.workingDirectoryNotFound working_dir)
  else
    match outcome with
    | .error e => .error (.io e)
    | .ok (stdout, stderr, status) =>
      if status.success then
        .ok { executor_name := "codex".toList, success := true
              stdout := stdout, stderr := stderr, output_lines := []
              exit_code := status.code }
      else
        .ok { executor_name := "codex".toList, success := false
              stdout := stdout, stderr := stderr, output_lines := []
              exit_code := status.code }

theorem projStdout_map_stdout (ls : List (List Char)) :
    projStdout (ls.map OutputLine.stdout) = ls := by
  induction ls with
  | nil => rfl
  | cons l rest ih => simpa [projStdout, List.filterMap_cons] using ih

theorem projStderr_map_stdout (ls : List (List Char)) :
    projStderr (ls.map OutputLine.stdout) = [] := by
  induction ls with
  | nil => rfl
  | cons l rest ih => simp [projStderr, List.filterMap_cons]

theorem projStderr_map_stderr (ls : List (List Char)) :
    projStderr (ls.map OutputLine.stderr) = ls := by
  induction ls with
  | nil => rfl
  | cons l rest ih => simpa [projStderr, List.filterMap_cons] using ih

theorem projStdout_map_stderr (ls : List (List Char)) :
    projStdout (ls.map OutputLine.stderr) = [] := by
  induction ls with
  | nil => rfl
  | cons l rest ih => simp [projStdout, List.filterMap_cons]

/-- C2, counterexample: for the interleaved-capture helper, when the
child's first stdout line is empty and a later one is not, no separator
is pushed for the empty line (the joined string is still empty at that
point), so the newline-join of the `Stdout` payloads of `output_lines`
(`"\na"`) differs from the `stdout` field (`"a"`). -/
theorem output_lines_projection_counterexample :
    joinNl (projStdout (captureRun [RawEvent.out [], RawEvent.out ['a']]
        (ExitStatus.exited 0) ['m']).output_lines)
      ≠ (captureRun [RawEvent.out [], RawEvent.out ['a']]
        (ExitStatus.exited 0) ['m']).stdout := by decide

/-- C2, amended: for results of the interleaved-capture helper, `stdout`
equals the newline-join of the `Stdout` payloads of `output_lines` after
dropping the leading run of empty lines (and likewise `stderr` for the
`Stderr` payloads).  For the `success` (resp. `failure`) constructor,
the newline-join of the `Stdout` (resp. `Stderr`) payloads equals the
newline-join of the Rust lines of the given string, and the opposite
stream's projection is empty, as is the opposite field. -/
theorem output_lines_projection_amended :
    (∀ (events : List RawEvent) (status : ExitStatus) (name : List Char),
      (captureRun events status name).stdout
        = joinNl ((projStdout
            (captureRun events status name).output_lines).dropWhile
              List.isEmpty)
      ∧ (captureRun events status name).stderr
        = joinNl ((projStderr
            (captureRun events status name).output_lines).dropWhile
              List.isEmpty))
  ∧ (∀ (name s : List Char),
      joinNl (projStdout (ExecutionResult.mkSuccess name s).output_lines)
        = joinNl (rustLines s)
      ∧ (ExecutionResult.mkSuccess name s).stdout = s
      ∧ projStderr (ExecutionResult.mkSuccess name s).output_lines = []
      ∧ (ExecutionResult.mkSuccess name s).stderr = [])
  ∧ (∀ (name s : List Char) (c : Option Int),
      joinNl (projStderr (ExecutionResult.mkFailure name s c).output_lines)
        = joinNl (rustLines s)
      ∧ (ExecutionResult.mkFailure name s c).stderr = s
      ∧ projStdout (ExecutionResult.mkFailure name s c).output_lines = []
      ∧ (ExecutionResult.mkFailure name s c).stdout = []) := by
  refine ⟨fun events status name => ⟨?_, ?_⟩, fun name s => ?_, fun name s c => ?_⟩
  · show (outPayloads events).foldl pushLine []
      = joinNl ((projStdout (events.map RawEvent.toOutputLine)).dropWhile
          List.isEmpty)
    rw [projStdout_map_toOutputLine, foldl_pushLine_nil]
  · show (errPayloads events).foldl pushLine []
      = joinNl ((projStderr (events.map RawEvent.toOutputLine)).dropWhile
          List.isEmpty)
    rw [projStderr_map_toOutputLine, foldl_pushLine_nil]
  · refine ⟨?_, rfl, ?_, rfl⟩
    · show joinNl (projStdout ((rustLines s).map OutputLine.stdout))
        = joinNl (rustLines s)
      rw [projStdout_map_stdout]
    · show projStderr ((rustLines s).map OutputLine.stdout) = []
      rw [projStderr_map_stdout]
  · refine ⟨?_, rfl, ?_, rfl⟩
    · show joinNl (projStderr ((rustLines s).map OutputLine.stderr))
        = joinNl (rustLines s)
      rw [projStderr_map_stderr]
    · show projStdout ((rustLines s).map OutputLine.stderr) = []
      rw [projStdout_map_stderr]

theorem ExitStatus.success_iff (status : ExitStatus) :
    status.success = true ↔ status = ExitStatus.exited 0 := by
  cases status with
  | exited c => simp [ExitStatus.success]
  | signaled => simp [ExitStatus.success]

/-- C4, counterexample: with an existing working directory but a failing
spawn (the CLI binary missing, a pipe error), the claude adapter
propagates the I/O error through `?` instead of returning an
`ExecutionResult`. -/
theorem execute_never_errors_counterexample :
    (claudeExecute ['w'] true (Except.error IoError.ioErr)).isOk = false := by
  decide

/-- C4, amended: every executor adapter fails with
`WorkingDirectoryNotFound` when the working directory does not exist;
when it exists and the child is spawned and read without I/O error, the
adapter returns `Ok` with the success flag true iff the exit status is
zero (a non-zero exit yields `Ok` with `success = false`); a spawn or
I/O failure is propagated as an error. -/
theorem execute_error_behaviour_amended :
    (∀ (wd : List Char) (spawn : Except IoError (List RawEvent × ExitStatus)),
      claudeExecute wd false spawn = .error (.workingDirectoryNotFound wd)
      ∧ geminiExecute wd false spawn = .error (.workingDirectoryNotFound wd))
  ∧ (∀ (wd : List Char)
        (outcome : Except IoError (List Char × List Char × ExitStatus)),
      codexExecute wd false outcome = .error (.workingDirectoryNotFound wd))
  ∧ (∀ (wd : List Char) (events : List RawEvent) (status : ExitStatus),
      (∃ r, claudeExecute wd true (.ok (events, status)) = .ok r
        ∧ (r.success = true ↔ status = ExitStatus.exited 0))
      ∧ (∃ r, geminiExecute wd true (.ok (events, status)) = .ok r
        ∧ (r.success = true ↔ status = ExitStatus.exited 0)))
  ∧ (∀ (wd so se : List Char) (status : ExitStatus),
      ∃ r, codexExecute wd true (.ok (so, se, status)) = .ok r
        ∧ (r.success = true ↔ status = ExitStatus.exited 0))
  ∧ (∀ (wd : List Char) (e : IoError),
      claudeExecute wd true (.error e) = .error (.io e)
      ∧ geminiExecute wd true (.error e) = .error (.io e)
      ∧ codexExecute wd true (.error e) = .error (.io e)) := by
  refine ⟨fun wd spawn => ⟨rfl, rfl⟩, fun wd outcome => rfl,
    fun wd events status => ⟨?_, ?_⟩, fun wd so se status => ?_,
    fun wd e => ⟨rfl, rfl, rfl⟩⟩
  · exact ⟨captureRun events status "claude".toList, rfl,
      by simpa [captureRun] using ExitStatus.success_iff status⟩
  · exact ⟨captureRun events status "gemini".toList, rfl,
      by simpa [captureRun] using ExitStatus.success_iff status⟩
  · by_cases h : status.success = true
    · refine ⟨{ executor_name := "codex".toList, success := true
                stdout := so, stderr := se, output_lines := []
                exit_code := status.code }, ?_, ?_⟩
      · simp [codexExecute, h]
      · exact ⟨fun _ => (ExitStatus.success_iff status).mp h, fun _ => rfl⟩
    · refine ⟨{ executor_name := "codex".toList, success := false
                stdout := so, stderr := se, output_lines := []
                exit_code := status.code }, ?_, ?_⟩
      · simp [codexExecute, h]
      · simp only [Bool.false_eq_true, false_iff]
        intro hc
        rw [hc] at h
        exact h rfl

/-! ## The task runner (`src/domain/task.rs`) -/

/-- Embeds `TaskResult` from `src/domain/task.rs`. -/
structure TaskResult where
  execution : ExecutionResult
  worktree_path : List Char
  change_summary : Option ChangeSummary
  deriving DecidableEq, Repr

/-- The outcome-relevant data of one task launched by
`TaskRunner::run_with_progress`: the worktree it was given, what its
`execute` call returned, and what the change-summary probe returned. -/
structure TaskSpec where
  worktree_path : List Char
  execOutcome : Except Error ExecutionResult
  summaryOutcome : Except Error ChangeSummary

/-- Embeds the per-task async block of `run_with_progress`
(`src/domain/task.rs`, lines 100–141): an `Ok` execution yields
`Some TaskResult` with `change_summary := summary.ok()`; an `Err`
execution yields `None`. -/
def runTask (t : TaskSpec) : Option TaskResult :=
  match t.execOutcome with
  | .ok execution =>
    some { execution := execution
           worktree_path := t.worktree_path
           change_summary := t.summaryOutcome.toOption }
  | .error _ => none

/-- Embeds the collection step of `run_with_progress`
(`src/domain/task.rs`, line 145): `join_all` the per-task options and
`flatten` away the `None`s. -/
def run_with_progress (ts : List TaskSpec) : List TaskResult :=
  (ts.map runTask).filterMap id

/-- C5: an `Ok` execute call always contributes a `TaskResult`, keeping
the `ExecutionResult` even when the change-summary probe fails (then
with `change_summary = none`); an `Err` execute call contributes
nothing, so the returned list has exactly one entry per `Ok` task. -/
theorem run_with_progress_collection (ts : List TaskSpec) :
    (∀ t ∈ ts, ∀ e, t.execOutcome = .ok e →
      { execution := e, worktree_path := t.worktree_path
        change_summary := t.summaryOutcome.toOption : TaskResult }
        ∈ run_with_progress ts)
  ∧ (∀ t ∈ ts, ∀ e err, t.execOutcome = .ok e →
      t.summaryOutcome = .error err →
      { execution := e, worktree_path := t.worktree_path
        change_summary := none : TaskResult } ∈ run_with_progress ts)
  ∧ (run_with_progress ts).length
      = (ts.filter (fun t => t.execOutcome.isOk)).length := by
  refine ⟨?_, ?_, ?_⟩
  · intro t ht e he
    have hrt : runTask t = some
        { execution := e, worktree_path := t.worktree_path
          change_summary := t.summaryOutcome.toOption } := by
      simp [runTask, he]
    simp only [run_with_progress, List.mem_filterMap, List.mem_map, id]
    exact ⟨runTask t, ⟨t, ht, rfl⟩, hrt⟩
  · intro t ht e err he herr
    have hrt : runTask t = some
        { execution := e, worktree_path := t.worktree_path
          change_summary := none } := by
      simp [runTask, he, herr, Except.toOption]
    simp only [run_with_progress, List.mem_filterMap, List.mem_map, id]
    exact ⟨runTask t, ⟨t, ht, rfl⟩, hrt⟩
  · induction ts with
    | nil => rfl
    | cons t rest ih =>
      have hih : (run_with_progress rest).length
          = (rest.filter (fun t => t.execOutcome.isOk)).length := ih
      cases h : t.execOutcome with
      | ok e =>
        have h1 : id (runTask t) = some
            { execution := e, worktree_path := t.worktree_path
              change_summary := t.summaryOutcome.toOption } := by
          simp [runTask, h]
        have h2 : (fun t : TaskSpec => t.execOutcome.isOk) t = true := by
          simp only [h]
          rfl
        have h3 : List.filter (fun t : TaskSpec => t.execOutcome.isOk) (t :: rest)
            = t :: rest.filter (fun t => t.execOutcome.isOk) :=
          List.filter_cons_of_pos h2
        show (List.filterMap id (runTask t :: rest.map runTask)).length
            = ((t :: rest).filter (fun t => t.execOutcome.isOk)).length
        rw [List.filterMap_cons_some h1, h3, List.length_cons, List.length_cons]
        exact congrArg (fun n => n + 1) hih
      | error err =>
        have h1 : id (runTask t) = none := by simp [runTask, h]
        have h2 : (fun t : TaskSpec => t.execOutcome.isOk) t = false := by
          simp only [h]
          rfl
        have h3 : List.filter (fun t : TaskSpec => t.execOutcome.isOk) (t :: rest)
            = rest.filter (fun t => t.execOutcome.isOk) :=
          List.filter_cons_of_neg (by simp [h2])
        show (List.filterMap id (runTask t :: rest.map runTask)).length
            = ((t :: rest).filter (fun t => t.execOutcome.isOk)).length
        rw [List.filterMap_cons_none h1, h3]
        exact hih

/-- Witness for C5 at a concrete input: one task whose execute call
succeeded but whose summary probe failed, one task whose execute call
errored. -/
theorem run_with_progress_collection_witness :
    { execution := ExecutionResult.mkSuccess ['m'] ['o']
      worktree_path := ['w'], change_summary := none : TaskResult }
      ∈ run_with_progress
        [ { worktree_path := ['w']
            execOutcome := .ok (ExecutionResult.mkSuccess ['m'] ['o'])
            summaryOutcome := .error (.io .ioErr) },
          { worktree_path := ['v']
            execOutcome := .error (.io .ioErr)
            summaryOutcome := .error (.io .ioErr) } ] := by
  refine (run_with_progress_collection _).2.1
    { worktree_path := ['w']
      execOutcome := .ok (ExecutionResult.mkSuccess ['m'] ['o'])
      summaryOutcome := .error (.io .ioErr) } ?_ _ (.io .ioErr) rfl rfl
  simp

/-! ## The worktree fleet cap
(`src/git/worktree.rs`, `src/config/paths.rs`, `src/domain/worktree.rs`) -/

/-- Embeds `MAX_WORKTREES` from `src/config/paths.rs`. -/
def MAX_WORKTREES : Nat := 20

/-- Lexicographic order on names (how `OsString` file names compare on
ASCII names such as the timestamp-prefixed worktree directories). -/
def nameLe : List Char → List Char → Bool
  | [], _ => true
  | _ :: _, [] => false
  | a :: as, b :: bs => if a = b then nameLe as bs else decide (a < b)

/-- Insert into a sorted list (kernel-reducible stable sorting, used to
embed `entries.sort_by_key(|a| a.file_name())` from
`cleanup_old_worktrees`). -/
def insertSorted (x : List Char) : List (List Char) → List (List Char)
  | [] => [x]
  | y :: ys => if nameLe x y then x :: y :: ys else y :: insertSorted x ys

/-- Stable insertion sort by name, embedding the `sort_by_key` call of
`cleanup_old_worktrees` (`src/git/worktree.rs`, line 260). -/
def sortByName (l : List (List Char)) : List (List Char) :=
  l.foldr insertSorted []

/-- The removal loop of `cleanup_old_worktrees`
(`src/git/worktree.rs`, lines 263–271): while strictly more entries than
`MAX_WORKTREES` remain, remove the first (lexicographically smallest,
hence oldest) entry.  Returns the removed entries in removal order,
paired with the surviving entries. -/
def pruneEntries : List (List Char) → List (List Char) × List (List Char)
  | [] => ([], [])
  | x :: rest =>
    if (x :: rest).length > MAX_WORKTREES then
      ((pruneEntries rest).1.cons x, (pruneEntries rest).2)
    else ([], x :: rest)

/-- Embeds `cleanup_old_worktrees` from `src/git/worktree.rs`: sort the
scratch-root directory entries by name, then run the removal loop. -/
def cleanup_old_worktrees (entries : List (List Char)) :
    List (List Char) × List (List Char) :=
  pruneEntries (sortByName entries)

/-- Embeds `WorktreeManager::create_worktrees`
(`src/domain/worktree.rs`, lines 104–116) at the directory level: prune
first, then materialize one new directory per executor.  Returns the
pruned names and the directories on disk afterwards. -/
def create_worktrees (existing newDirs : List (List Char)) :
    List (List Char) × List (List Char) :=
  ((cleanup_old_worktrees existing).1,
   (cleanup_old_worktrees existing).2 ++ newDirs)

theorem pruneEntries_eq (l : List (List Char)) :
    pruneEntries l
      = (l.take (l.length - MAX_WORKTREES),
         l.drop (l.length - MAX_WORKTREES)) := by
  induction l with
  | nil => simp [pruneEntries]
  | cons x rest ih =>
    by_cases h : (x :: rest).length > MAX_WORKTREES
    · have hk : (x :: rest).length - MAX_WORKTREES
          = (rest.length - MAX_WORKTREES) + 1 := by
        simp only [List.length_cons] at h ⊢
        omega
      simp only [pruneEntries]
      rw [if_pos h, ih, hk, List.take_succ_cons, List.drop_succ_cons]
    · have hk : (x :: rest).length - MAX_WORKTREES = 0 := by
        simp only [gt_iff_lt, List.length_cons, not_lt] at h ⊢
        omega
      simp only [pruneEntries]
      rw [if_neg h, hk, List.take_zero, List.drop_zero]

theorem insertSorted_length (x : List Char) (l : List (List Char)) :
    (insertSorted x l).length = l.length + 1 := by
  induction l with
  | nil => rfl
  | cons y ys ih =>
    by_cases h : nameLe x y = true <;> simp [insertSorted, h, ih]

theorem sortByName_length (l : List (List Char)) :
    (sortByName l).length = l.length := by
  induction l with
  | nil => rfl
  | cons x rest ih =>
    show (insertSorted x (sortByName rest)).length = rest.length + 1
    rw [insertSorted_length, ih]

/-- The concrete pre-population of scenario 4 of the specification:
25 distinct names under the scratch root, listed out of order. -/
def ex25 : List (List Char) :=
  ["a07", "a01", "a25", "a13", "a02", "a19", "a03", "a24", "a04", "a10",
   "a05", "a06", "a08", "a09", "a11", "a12", "a14", "a15", "a16", "a17",
   "a18", "a20", "a21", "a22", "a23"].map String.toList

/-- C1, counterexample: the removal loop runs only while the count
strictly exceeds `MAX_WORKTREES`, so with 25 pre-existing directories it
prunes the 5 (not 6) lexicographically smallest, leaves 20 (not 19)
pre-existing entries, and `create(["x"])` leaves 21 (not 20) directories
on disk. -/
theorem create_worktrees_cap_counterexample :
    (create_worktrees ex25 [['x']]).2.length = 21
    ∧ ¬ (create_worktrees ex25 [['x']]).2.length = 20
    ∧ (create_worktrees ex25 [['x']]).1
        = ["a01", "a02", "a03", "a04", "a05"].map String.toList
    ∧ ¬ (create_worktrees ex25 [['x']]).1.length = 6 := by decide

/-- C1, amended: the prune step leaves at most `MAX_WORKTREES`
pre-existing entries (exactly `min n MAX_WORKTREES` of them), removing
the lexicographically smallest ones beyond the cap, so after creating
the new batch the count is `min n MAX_WORKTREES + batch size`; in
particular, with the 25 pre-existing directories of scenario 4,
`create(["x"])` prunes the 5 lexicographically smallest and leaves 21
directories on disk. -/
theorem create_worktrees_cap (existing newDirs : List (List Char)) :
    (create_worktrees existing newDirs).2.length
      = min existing.length MAX_WORKTREES + newDirs.length
  ∧ (create_worktrees existing newDirs).1
      = (sortByName existing).take (existing.length - MAX_WORKTREES)
  ∧ (create_worktrees existing newDirs).1.length
      = existing.length - min existing.length MAX_WORKTREES
  ∧ ((create_worktrees ex25 [['x']]).2.length = 21
      ∧ (create_worktrees ex25 [['x']]).1
          = ["a01", "a02", "a03", "a04", "a05"].map String.toList) := by
  have hsort := sortByName_length existing
  have hp := pruneEntries_eq (sortByName existing)
  refine ⟨?_, ?_, ?_, ?_, ?_⟩
  · simp only [create_worktrees, cleanup_old_worktrees, hp,
      List.length_append, List.length_drop, hsort]
    omega
  · simp only [create_worktrees, cleanup_old_worktrees, hp, hsort]
  · simp only [create_worktrees, cleanup_old_worktrees, hp,
      List.length_take, hsort]
    omega
  · decide
  · decide

/-! ## Worktree removal (`src/git/worktree.rs`, `remove_worktree`) -/

/-- The effect outcomes `remove_worktree` can observe: whether the
`git worktree remove --force` child could be spawned and whether it
succeeded, whether the directory still exists, what the direct
`remove_dir_all` would return, and what `git worktree prune` would
return. -/
structure RemoveWorktreeEnv where
  gitRemove : Except IoError Bool
  pathExists : Bool
  removeDirAll : Except IoError Unit
  gitPrune : Except IoError Bool

/-- Embeds `remove_worktree` from `src/git/worktree.rs`
(lines 188–217): try the forced git removal; on failure, erase the
directory tree when it still exists (propagating an erase failure via
`?`), then invoke the pruner with its result discarded. -/
def remove_worktree (env : RemoveWorktreeEnv) : Except Error Unit :=
  match env.gitRemove with
  | .error e => .error (.io e)
  | .ok flag =>
    if flag then .ok ()
    else
      match (if env.pathExists then env.removeDirAll else .ok ()) with
      | .error e => .error (.io e)
      | .ok _ =>
        let _ := env.gitPrune
        .ok ()

/-- C9, counterexample: when the forced git removal reports failure, the
directory still exists, and the direct erase fails, `remove_worktree`
propagates the I/O error instead of returning success. -/
theorem remove_worktree_counterexample :
    remove_worktree
      { gitRemove := .ok false, pathExists := true
        removeDirAll := .error .ioErr, gitPrune := .ok true }
      = .error (.io .ioErr)
    ∧ remove_worktree
      { gitRemove := .ok false, pathExists := true
        removeDirAll := .error .ioErr, gitPrune := .ok true }
      ≠ .ok () :=
  ⟨rfl, fun h => Except.noConfusion h⟩

/-- C9, amended: `remove_worktree` returns success whenever the git
child can be spawned and either the forced removal succeeds, or the
directory is already gone (so removing an already-removed checkout
returns success — idempotence), or the direct erase succeeds; the
pruner's outcome never affects the result.  A spawn failure or a failing
direct erase propagates as an error. -/
theorem remove_worktree_best_effort :
    (∀ env : RemoveWorktreeEnv, env.gitRemove = .ok true →
      remove_worktree env = .ok ())
  ∧ (∀ env : RemoveWorktreeEnv, env.gitRemove = .ok false →
      env.pathExists = false → remove_worktree env = .ok ())
  ∧ (∀ env : RemoveWorktreeEnv, env.gitRemove = .ok false →
      env.removeDirAll = .ok () → remove_worktree env = .ok ())
  ∧ (∀ (env : RemoveWorktreeEnv) (p : Except IoError Bool),
      remove_worktree env = remove_worktree { env with gitPrune := p }) := by
  refine ⟨?_, ?_, ?_, ?_⟩
  · intro env h
    simp [remove_worktree, h]
  · intro env h hp
    simp [remove_worktree, h, hp]
  · intro env h hr
    cases hpe : env.pathExists <;> simp [remove_worktree, h, hr, hpe]
  · intro env p
    rfl

/-- Witness for C9 at a concrete input: an already-removed checkout
(git removal reports failure, directory gone) is removed with
success. -/
theorem remove_worktree_best_effort_witness :
    remove_worktree
      { gitRemove := .ok false, pathExists := false
        removeDirAll := .error .ioErr, gitPrune := .error .ioErr }
      = .ok () :=
  remove_worktree_best_effort.2.1
    { gitRemove := .ok false, pathExists := false
      removeDirAll := .error .ioErr, gitPrune := .error .ioErr } rfl rfl

/-! ## The promotion engine (`src/git/merge.rs`, `apply_changes`)

The file-system fragment the walker touches is embedded as a tree of
named entries.  Directory listings are association lists in `read_dir`
order; a real directory never repeats a name, which the well-formedness
predicate `wfChildren` captures.  `Option` embeds the `Result`: `none`
is an `Err` return of `copy_dir_recursive`. -/

/-- A file-system entry: a regular file with its byte content, a
directory with named children, or a symbolic link. -/
inductive FsEntry where
  | file (content : List Nat) : FsEntry
  | dir (children : List (String × FsEntry)) : FsEntry
  | symlink (target : String) : FsEntry

/-- Look up a name among a directory's children (first match; a real
directory holds each name at most once). -/
def lookupName (l : List (String × FsEntry)) (n : String) : Option FsEntry :=
  match l with
  | [] => none
  | (m, e) :: rest => if m = n then some e else lookupName rest n

/-- A directory's children after creating or overwriting name `n` with
entry `e`: the first binding of `n` is replaced, or a new binding is
appended. -/
def setName (l : List (String × FsEntry)) (n : String) (e : FsEntry) :
    List (String × FsEntry) :=
  match l with
  | [] => [(n, e)]
  | (m, e₀) :: rest =>
    if m = n then (n, e) :: rest else (m, e₀) :: setName rest n e

mutual

/-- Directory listings never repeat a name, recursively. -/
def wfEntry : FsEntry → Bool
  | .file _ => true
  | .symlink _ => true
  | .dir cs => wfChildren cs

def wfChildren : List (String × FsEntry) → Bool
  | [] => true
  | (n, e) :: rest =>
    !(rest.any fun p => decide (p.1 = n)) && wfEntry e && wfChildren rest

end

mutual

/-- One loop iteration of `copy_dir_recursive` (`src/git/merge.rs`,
lines 64–90) for the entry `name ↦ e` of the source directory.  A name
equal to `.git` is skipped, as is a symbolic link.  A regular file first
unlinks an existing destination file (`remove_file` fails on a
directory: `none`), then copies.  A directory is ensured on the
destination side (`create_dir_all` fails when a file occupies the name:
`none`) and recursed into.  A destination symbolic link under a copied
directory is treated as a failure here, which is accurate only for
dangling links: the real `create_dir_all` follows a link to a directory
and the walk then writes through it — `copyDirRecursiveFollow` below
embeds that behaviour, and `copyDirFollow_eq_and_noSymlink` shows the
two engines agree whenever the destination holds no symbolic links. -/
def copyEntry (dst : List (String × FsEntry)) (name : String)
    (e : FsEntry) : Option (List (String × FsEntry)) :=
  if name = ".git" then some dst
  else
    match e with
    | .symlink _ => some dst
    | .file c =>
      match lookupName dst name with
      | some (.dir _) => none
      | _ => some (setName dst name (.file c))
    | .dir cs =>
      match lookupName dst name with
      | some (.file _) => none
      | some (.symlink _) => none
      | some (.dir dcs) =>
        match copyDirRecursive cs dcs with
        | none => none
        | some r => some (setName dst name (.dir r))
      | none =>
        match copyDirRecursive cs [] with
        | none => none
        | some r => some (setName dst name (.dir r))

/-- Embeds `copy_dir_recursive` from `src/git/merge.rs`: walk the
source listing in order, threading the destination directory through
`copyEntry`; the first failing entry aborts the walk. -/
def copyDirRecursive (src dst : List (String × FsEntry)) :
    Option (List (String × FsEntry)) :=
  match src with
  | [] => some dst
  | (n, e) :: rest =>
    match copyEntry dst n e with
    | none => none
    | some dst' => copyDirRecursive rest dst'

end

/-- Embeds `apply_changes` from `src/git/merge.rs` (lines 56–58): copy
the whole worktree tree onto the target, excluding `.git`. -/
def apply_changes (worktree target : List (String × FsEntry)) :
    Option (List (String × FsEntry)) :=
  copyDirRecursive worktree target

/-- The content of the regular file an entry holds at a relative path,
if any. -/
def entryFileAt : FsEntry → List String → Option (List Nat)
  | .file c, [] => some c
  | .file _, _ :: _ => none
  | .symlink _, _ => none
  | .dir _, [] => none
  | .dir cs, n :: q =>
    match lookupName cs n with
    | some e => entryFileAt e q
    | none => none

/-- The content of the regular file a directory tree holds at a path,
if any. -/
def fileAt (t : List (String × FsEntry)) : List String → Option (List Nat)
  | [] => none
  | n :: q =>
    match lookupName t n with
    | some e => entryFileAt e q
    | none => none

theorem entryFileAt_dir (cs : List (String × FsEntry)) (q : List String) :
    entryFileAt (.dir cs) q = fileAt cs q := by
  cases q with
  | nil => rfl
  | cons n q' => rfl

theorem fileAt_nil (p : List String) : fileAt [] p = none := by
  cases p with
  | nil => rfl
  | cons n q => rfl

theorem lookupName_setName_self (l : List (String × FsEntry)) (n : String)
    (e : FsEntry) : lookupName (setName l n e) n = some e := by
  induction l with
  | nil => simp [setName, lookupName]
  | cons p rest ih =>
    obtain ⟨m, e₀⟩ := p
    by_cases h : m = n
    · simp [setName, h, lookupName]
    · simp [setName, h, lookupName, ih]

theorem lookupName_setName_ne (l : List (String × FsEntry)) (n m : String)
    (e : FsEntry) (h : m ≠ n) :
    lookupName (setName l n e) m = lookupName l m := by
  have hnm : ¬ n = m := fun hh => h hh.symm
  induction l with
  | nil => simp [setName, lookupName, hnm]
  | cons p rest ih =>
    obtain ⟨k, e₀⟩ := p
    by_cases hk : k = n
    · have hkm : ¬ k = m := by rw [hk]; exact hnm
      simp only [setName, if_pos hk, lookupName, if_neg hnm, if_neg hkm]
    · simp only [setName, if_neg hk, lookupName, ih]

theorem setName_eq_of_lookup (l : List (String × FsEntry)) (n : String)
    (e : FsEntry) (h : lookupName l n = some e) : setName l n e = l := by
  induction l with
  | nil => exact absurd h (by simp [lookupName])
  | cons p rest ih =>
    obtain ⟨m, e₀⟩ := p
    by_cases hm : m = n
    · simp only [lookupName, if_pos hm] at h
      cases h
      simp only [setName, if_pos hm]
      rw [hm]
    · simp only [lookupName, if_neg hm] at h
      simp only [setName, if_neg hm, ih h]

theorem lookupName_eq_none_of_not_any (l : List (String × FsEntry))
    (n : String) (h : (l.any fun p => decide (p.1 = n)) = false) :
    lookupName l n = none := by
  induction l with
  | nil => rfl
  | cons p rest ih =>
    obtain ⟨m, e₀⟩ := p
    simp only [List.any_cons, Bool.or_eq_false_iff] at h
    have hm : m ≠ n := by simpa using h.1
    simp [lookupName, hm, ih h.2]

/-- Unfolding lemma: a source entry named `.git` is skipped. -/
theorem copyEntry_git (dst : List (String × FsEntry)) (e : FsEntry) :
    copyEntry dst ".git" e = some dst := by
  rw [copyEntry.eq_def, if_pos rfl]

/-- Unfolding lemma: a symbolic link is skipped. -/
theorem copyEntry_symlink (dst : List (String × FsEntry)) (name t : String)
    (hg : ¬ name = ".git") : copyEntry dst name (.symlink t) = some dst := by
  rw [copyEntry.eq_def, if_neg hg]

/-- Unfolding lemma for copying a regular file. -/
theorem copyEntry_file_eq (dst : List (String × FsEntry)) (name : String)
    (c : List Nat) (hg : ¬ name = ".git") :
    copyEntry dst name (.file c)
      = match lookupName dst name with
        | some (.dir _) => none
        | _ => some (setName dst name (.file c)) := by
  rw [copyEntry.eq_def, if_neg hg]

/-- Unfolding lemma for copying a directory. -/
theorem copyEntry_dir_eq (dst : List (String × FsEntry)) (name : String)
    (cs : List (String × FsEntry)) (hg : ¬ name = ".git") :
    copyEntry dst name (.dir cs)
      = match lookupName dst name with
        | some (.file _) => none
        | some (.symlink _) => none
        | some (.dir dcs) =>
          match copyDirRecursive cs dcs with
          | none => none
          | some r => some (setName dst name (.dir r))
        | none =>
          match copyDirRecursive cs [] with
          | none => none
          | some r => some (setName dst name (.dir r)) := by
  rw [copyEntry.eq_def, if_neg hg]

/-- Unfolding lemma: copying an empty source listing changes nothing. -/
theorem copyDir_nil (dst : List (String × FsEntry)) :
    copyDirRecursive [] dst = some dst := by
  rw [copyDirRecursive.eq_def]

/-- Unfolding lemma for one step of the source walk. -/
theorem copyDir_cons (n : String) (e : FsEntry)
    (rest dst : List (String × FsEntry)) :
    copyDirRecursive ((n, e) :: rest) dst
      = match copyEntry dst n e with
        | none => none
        | some dst2 => copyDirRecursive rest dst2 := by
  rw [copyDirRecursive.eq_def]

/-- `copyEntry` only touches the binding of the name it copies. -/
theorem copyEntry_lookup_ne (dst dst' : List (String × FsEntry))
    (name : String) (e : FsEntry) (m : String)
    (h : copyEntry dst name e = some dst') (hm : m ≠ name) :
    lookupName dst' m = lookupName dst m := by
  by_cases hg : name = ".git"
  · subst hg
    rw [copyEntry_git] at h
    cases h
    rfl
  · cases e with
    | symlink t =>
      rw [copyEntry_symlink dst name t hg] at h
      cases h
      rfl
    | file c =>
      rw [copyEntry_file_eq dst name c hg] at h
      cases hl : lookupName dst name with
      | none =>
        rw [hl] at h
        cases h
        exact lookupName_setName_ne dst name m _ hm
      | some e₀ =>
        cases e₀ with
        | dir dcs =>
          rw [hl] at h
          cases h
        | file c₀ =>
          rw [hl] at h
          cases h
          exact lookupName_setName_ne dst name m _ hm
        | symlink t =>
          rw [hl] at h
          cases h
          exact lookupName_setName_ne dst name m _ hm
    | dir cs =>
      rw [copyEntry_dir_eq dst name cs hg] at h
      cases hl : lookupName dst name with
      | none =>
        rw [hl] at h
        cases hr : copyDirRecursive cs [] with
        | none => rw [hr] at h; cases h
        | some r =>
          rw [hr] at h
          cases h
          exact lookupName_setName_ne dst name m _ hm
      | some e₀ =>
        cases e₀ with
        | file c₀ => rw [hl] at h; cases h
        | symlink t => rw [hl] at h; cases h
        | dir dcs =>
          rw [hl] at h
          have h2 : (match copyDirRecursive cs dcs with
              | none => none
              | some r => some (setName dst name (.dir r))) = some dst' := h
          cases hr : copyDirRecursive cs dcs with
          | none => rw [hr] at h2; cases h2
          | some r =>
            rw [hr] at h2
            cases h2
            exact lookupName_setName_ne dst name m _ hm

/-- `copyDirRecursive` only touches bindings of names listed in the
source directory. -/
theorem copyDir_lookup_frame (src : List (String × FsEntry))
    (dst dst' : List (String × FsEntry)) (n : String)
    (h : copyDirRecursive src dst = some dst')
    (hn : (src.any fun p => decide (p.1 = n)) = false) :
    lookupName dst' n = lookupName dst n := by
  induction src generalizing dst with
  | nil =>
    simp only [copyDirRecursive] at h
    cases h
    rfl
  | cons p rest ih =>
    obtain ⟨m, e⟩ := p
    simp only [List.any_cons, Bool.or_eq_false_iff] at hn
    have hm : n ≠ m := by
      have := hn.1
      simp only [decide_eq_false_iff_not] at this
      exact fun hh => this hh.symm
    simp only [copyDirRecursive] at h
    cases hc : copyEntry dst m e with
    | none => rw [hc] at h; cases h
    | some dst₁ =>
      rw [hc] at h
      calc lookupName dst' n = lookupName dst₁ n := ih dst₁ h hn.2
        _ = lookupName dst n := copyEntry_lookup_ne dst dst₁ m e n hc hm

theorem fileAt_cons (t : List (String × FsEntry)) (n : String)
    (q : List String) :
    fileAt t (n :: q) = match lookupName t n with
      | some e => entryFileAt e q
      | none => none := rfl

theorem entryFileAt_symlink (t : String) (q : List String) :
    entryFileAt (.symlink t) q = none := by
  cases q <;> rfl

theorem wfEntry_dir (cs : List (String × FsEntry)) :
    wfEntry (.dir cs) = wfChildren cs := by
  rw [wfEntry.eq_def]

theorem wfChildren_cons (n : String) (e : FsEntry)
    (rest : List (String × FsEntry)) :
    wfChildren ((n, e) :: rest)
      = (!(rest.any fun p => decide (p.1 = n)) && wfEntry e
          && wfChildren rest) := by
  rw [wfChildren.eq_def]

theorem mem_git_cons (n : String) (q : List String) (hg : ¬ n = ".git") :
    (".git" ∈ n :: q) = (".git" ∈ q) := by
  simp only [List.mem_cons, eq_iff_iff]
  constructor
  · rintro (hh | hh)
    · exact absurd hh.symm hg
    · exact hh
  · exact Or.inr

mutual

/-- What one `copyEntry` step leaves at each path below the copied
name: paths through a `.git` component are untouched; elsewhere the
source entry's file wins, with the destination as fallback. -/
theorem copyEntry_fileAt_master (e : FsEntry) (d d' : List (String × FsEntry))
    (n : String) (hwf : wfEntry e = true)
    (h : copyEntry d n e = some d') (q : List String) :
    fileAt d' (n :: q)
      = if ".git" ∈ n :: q then fileAt d (n :: q)
        else (entryFileAt e q).or (fileAt d (n :: q)) := by
  by_cases hg : n = ".git"
  · subst hg
    rw [copyEntry_git] at h
    cases h
    rw [if_pos (List.mem_cons_self _ _)]
  · simp only [mem_git_cons n q hg]
    cases e with
    | symlink t =>
      rw [copyEntry_symlink d n t hg] at h
      cases h
      rw [entryFileAt_symlink, Option.none_or, ite_self]
    | file c =>
      rw [copyEntry_file_eq d n c hg] at h
      cases hl : lookupName d n with
      | none =>
        rw [hl] at h
        cases h
        cases q with
        | nil =>
          have hgf : ¬ (".git" ∈ ([] : List String)) := by simp
          rw [if_neg hgf, fileAt_cons, lookupName_setName_self, fileAt_cons,
            hl]
          rfl
        | cons m q' =>
          rw [fileAt_cons, lookupName_setName_self, fileAt_cons, hl]
          show (none : Option (List Nat)) = if ".git" ∈ m :: q' then none
            else none
          rw [ite_self]
      | some e₀ =>
        cases e₀ with
        | dir dcs =>
          rw [hl] at h
          cases h
        | file c₀ =>
          rw [hl] at h
          cases h
          cases q with
          | nil =>
            have hgf : ¬ (".git" ∈ ([] : List String)) := by simp
            rw [if_neg hgf, fileAt_cons, lookupName_setName_self]
            rfl
          | cons m q' =>
            rw [fileAt_cons, lookupName_setName_self, fileAt_cons, hl]
            show (none : Option (List Nat)) = if ".git" ∈ m :: q' then none
              else none
            rw [ite_self]
        | symlink t =>
          rw [hl] at h
          cases h
          cases q with
          | nil =>
            have hgf : ¬ (".git" ∈ ([] : List String)) := by simp
            rw [if_neg hgf, fileAt_cons, lookupName_setName_self]
            rfl
          | cons m q' =>
            rw [fileAt_cons, lookupName_setName_self, fileAt_cons, hl]
            show (none : Option (List Nat)) = if ".git" ∈ m :: q' then none
              else none
            rw [ite_self]
    | dir cs =>
      have hwfcs : wfChildren cs = true := by rwa [wfEntry_dir] at hwf
      rw [copyEntry_dir_eq d n cs hg] at h
      cases hl : lookupName d n with
      | none =>
        rw [hl] at h
        cases hr : copyDirRecursive cs [] with
        | none =>
          rw [hr] at h
          cases h
        | some r =>
          rw [hr] at h
          cases h
          have ih := copyDir_fileAt_master cs [] r hwfcs hr q
          have hLHS : fileAt (setName d n (.dir r)) (n :: q) = fileAt r q := by
            rw [fileAt_cons, lookupName_setName_self]
            exact entryFileAt_dir r q
          have hRd : fileAt d (n :: q) = none := by rw [fileAt_cons, hl]
          rw [hLHS, ih, hRd, entryFileAt_dir, fileAt_nil]
      | some e₀ =>
        cases e₀ with
        | file c₀ =>
          rw [hl] at h
          cases h
        | symlink t =>
          rw [hl] at h
          cases h
        | dir dcs =>
          rw [hl] at h
          have h2 : (match copyDirRecursive cs dcs with
              | none => none
              | some r => some (setName d n (.dir r))) = some d' := h
          cases hr : copyDirRecursive cs dcs with
          | none =>
            rw [hr] at h2
            cases h2
          | some r =>
            rw [hr] at h2
            cases h2
            have ih := copyDir_fileAt_master cs dcs r hwfcs hr q
            have hLHS : fileAt (setName d n (.dir r)) (n :: q)
                = fileAt r q := by
              rw [fileAt_cons, lookupName_setName_self]
              exact entryFileAt_dir r q
            have hRd : fileAt d (n :: q) = fileAt dcs q := by
              rw [fileAt_cons, hl]
              exact entryFileAt_dir dcs q
            rw [hLHS, ih, hRd, entryFileAt_dir]

/-- What a whole `copyDirRecursive` run leaves at each path: paths
through a `.git` component keep the destination's content; elsewhere the
source's file content wins where it exists, the destination's persists
where it does not. -/
theorem copyDir_fileAt_master (s d d' : List (String × FsEntry))
    (hwf : wfChildren s = true)
    (h : copyDirRecursive s d = some d') (p : List String) :
    fileAt d' p
      = if ".git" ∈ p then fileAt d p
        else (fileAt s p).or (fileAt d p) := by
  cases s with
  | nil =>
    rw [copyDir_nil] at h
    cases h
    rw [fileAt_nil, Option.none_or, ite_self]
  | cons hd rest =>
    obtain ⟨n, e⟩ := hd
    rw [wfChildren_cons] at hwf
    simp only [Bool.and_eq_true, Bool.not_eq_eq_eq_not, Bool.not_true] at hwf
    obtain ⟨⟨hkey, hwfe⟩, hwfrest⟩ := hwf
    rw [copyDir_cons] at h
    cases hc : copyEntry d n e with
    | none =>
      rw [hc] at h
      cases h
    | some d₁ =>
      rw [hc] at h
      have ihrest := copyDir_fileAt_master rest d₁ d' hwfrest h
      cases p with
      | nil =>
        rw [ihrest []]
        rfl
      | cons m q =>
        by_cases hmn : m = n
        · subst hmn
          have hrestnone : fileAt rest (m :: q) = none := by
            rw [fileAt_cons,
              lookupName_eq_none_of_not_any rest m hkey]
          have ihe := copyEntry_fileAt_master e d d₁ m hwfe hc q
          rw [ihrest (m :: q), hrestnone, Option.none_or, ite_self, ihe,
            fileAt_cons ((m, e) :: rest) m q]
          show _ = if ".git" ∈ m :: q then fileAt d (m :: q)
            else (match (if m = m then some e else lookupName rest m) with
              | some e => entryFileAt e q
              | none => none).or (fileAt d (m :: q))
          rw [if_pos rfl]
        · have hlk : lookupName d₁ m = lookupName d m :=
            copyEntry_lookup_ne d d₁ n e m hc hmn
          have hfd : fileAt d₁ (m :: q) = fileAt d (m :: q) := by
            rw [fileAt_cons, fileAt_cons, hlk]
          have hs : fileAt ((n, e) :: rest) (m :: q) = fileAt rest (m :: q) := by
            rw [fileAt_cons, fileAt_cons]
            have : ¬ n = m := fun hh => hmn hh.symm
            show (match (if n = m then some e else lookupName rest m) with
              | some e => entryFileAt e q
              | none => none) = _
            rw [if_neg this]
          rw [ihrest (m :: q), hfd, hs]

end

mutual

/-- Re-copying an entry onto a destination that already holds the
outcome of copying it changes nothing. -/
theorem copyEntry_idem : ∀ (e : FsEntry)
    (d d₁ d' : List (String × FsEntry)) (n : String),
    wfEntry e = true → copyEntry d n e = some d₁ →
    lookupName d' n = lookupName d₁ n →
    copyEntry d' n e = some d'
  | .symlink t, d, d₁, d', n, hwf, h, hlook => by
    by_cases hg : n = ".git"
    · subst hg
      exact copyEntry_git d' _
    · exact copyEntry_symlink d' n t hg
  | .file c, d, d₁, d', n, hwf, h, hlook => by
    by_cases hg : n = ".git"
    · subst hg
      exact copyEntry_git d' _
    · rw [copyEntry_file_eq d n c hg] at h
      rw [copyEntry_file_eq d' n c hg]
      cases hl : lookupName d n with
      | none =>
        rw [hl] at h
        cases h
        have hd' : lookupName d' n = some (.file c) := by
          rw [hlook, lookupName_setName_self]
        rw [hd', setName_eq_of_lookup d' n (.file c) hd']
      | some e₀ =>
        cases e₀ with
        | dir dcs =>
          rw [hl] at h
          cases h
        | file c₀ =>
          rw [hl] at h
          cases h
          have hd' : lookupName d' n = some (.file c) := by
            rw [hlook, lookupName_setName_self]
          rw [hd', setName_eq_of_lookup d' n (.file c) hd']
        | symlink t =>
          rw [hl] at h
          cases h
          have hd' : lookupName d' n = some (.file c) := by
            rw [hlook, lookupName_setName_self]
          rw [hd', setName_eq_of_lookup d' n (.file c) hd']
  | .dir cs, d, d₁, d', n, hwf, h, hlook => by
    by_cases hg : n = ".git"
    · subst hg
      exact copyEntry_git d' _
    · have hwfcs : wfChildren cs = true := by rwa [wfEntry_dir] at hwf
      rw [copyEntry_dir_eq d n cs hg] at h
      rw [copyEntry_dir_eq d' n cs hg]
      cases hl : lookupName d n with
      | none =>
        rw [hl] at h
        cases hr : copyDirRecursive cs [] with
        | none =>
          rw [hr] at h
          cases h
        | some r =>
          rw [hr] at h
          cases h
          have hd' : lookupName d' n = some (.dir r) := by
            rw [hlook, lookupName_setName_self]
          rw [hd']
          show (match copyDirRecursive cs r with
            | none => none
            | some r2 => some (setName d' n (.dir r2))) = some d'
          rw [copyDir_idem cs [] r hwfcs hr]
          show some (setName d' n (.dir r)) = some d'
          rw [setName_eq_of_lookup d' n (.dir r) hd']
      | some e₀ =>
        cases e₀ with
        | file c₀ =>
          rw [hl] at h
          cases h
        | symlink t =>
          rw [hl] at h
          cases h
        | dir dcs =>
          rw [hl] at h
          have h2 : (match copyDirRecursive cs dcs with
              | none => none
              | some r => some (setName d n (.dir r))) = some d₁ := h
          cases hr : copyDirRecursive cs dcs with
          | none =>
            rw [hr] at h2
            cases h2
          | some r =>
            rw [hr] at h2
            cases h2
            have hd' : lookupName d' n = some (.dir r) := by
              rw [hlook, lookupName_setName_self]
            rw [hd']
            show (match copyDirRecursive cs r with
              | none => none
              | some r2 => some (setName d' n (.dir r2))) = some d'
            rw [copyDir_idem cs dcs r hwfcs hr]
            show some (setName d' n (.dir r)) = some d'
            rw [setName_eq_of_lookup d' n (.dir r) hd']

/-- Re-running a whole copy onto its own result reproduces that result
exactly. -/
theorem copyDir_idem : ∀ (s d d' : List (String × FsEntry)),
    wfChildren s = true → copyDirRecursive s d = some d' →
    copyDirRecursive s d' = some d'
  | [], d, d', hwf, h => by
    rw [copyDir_nil] at h
    cases h
    exact copyDir_nil _
  | (n, e) :: rest, d, d', hwf, h => by
    rw [wfChildren_cons] at hwf
    simp only [Bool.and_eq_true, Bool.not_eq_eq_eq_not, Bool.not_true] at hwf
    obtain ⟨⟨hkey, hwfe⟩, hwfrest⟩ := hwf
    rw [copyDir_cons] at h
    cases hc : copyEntry d n e with
    | none =>
      rw [hc] at h
      cases h
    | some d₁ =>
      rw [hc] at h
      have hlook : lookupName d' n = lookupName d₁ n :=
        copyDir_lookup_frame rest d₁ d' n h hkey
      have hce : copyEntry d' n e = some d' :=
        copyEntry_idem e d d₁ d' n hwfe hc hlook
      rw [copyDir_cons, hce]
      exact copyDir_idem rest d₁ d' hwfrest h

end

mutual

/-- A tree that contains no symbolic link anywhere. -/
def noSymlinkEntry : FsEntry → Bool
  | .file _ => true
  | .symlink _ => false
  | .dir cs => noSymlinkChildren cs

def noSymlinkChildren : List (String × FsEntry) → Bool
  | [] => true
  | (_, e) :: rest => noSymlinkEntry e && noSymlinkChildren rest

end

mutual

/-- The same walker as `copyEntry`, under the host file system's actual
treatment of destination symbolic links: `create_dir_all` follows a
symbolic link to a directory, so copying a source directory onto a
destination directory-symlink succeeds and writes through the link into
its target.  Link targets are embedded as sibling names within the same
directory listing — the fragment needed to express the behaviour; a
dangling or chained link still fails.  On destinations without symbolic
links this engine coincides with `copyEntry`
(`copyEntryFollow_eq_and_noSymlink`). -/
def copyEntryFollow (dst : List (String × FsEntry)) (name : String)
    (e : FsEntry) : Option (List (String × FsEntry)) :=
  if name = ".git" then some dst
  else
    match e with
    | .symlink _ => some dst
    | .file c =>
      match lookupName dst name with
      | some (.dir _) => none
      | _ => some (setName dst name (.file c))
    | .dir cs =>
      match lookupName dst name with
      | some (.file _) => none
      | some (.symlink t) =>
        match lookupName dst t with
        | some (.dir tcs) =>
          match copyDirRecursiveFollow cs tcs with
          | none => none
          | some r => some (setName dst t (.dir r))
        | _ => none
      | some (.dir dcs) =>
        match copyDirRecursiveFollow cs dcs with
        | none => none
        | some r => some (setName dst name (.dir r))
      | none =>
        match copyDirRecursiveFollow cs [] with
        | none => none
        | some r => some (setName dst name (.dir r))

/-- `copy_dir_recursive` under the link-following destination
semantics. -/
def copyDirRecursiveFollow (src dst : List (String × FsEntry)) :
    Option (List (String × FsEntry)) :=
  match src with
  | [] => some dst
  | (n, e) :: rest =>
    match copyEntryFollow dst n e with
    | none => none
    | some dst2 => copyDirRecursiveFollow rest dst2

end

/-- Embeds `apply_changes` under the link-following destination
semantics. -/
def apply_changesFollow (worktree target : List (String × FsEntry)) :
    Option (List (String × FsEntry)) :=
  copyDirRecursiveFollow worktree target

theorem copyEntryFollow_git (dst : List (String × FsEntry)) (e : FsEntry) :
    copyEntryFollow dst ".git" e = some dst := by
  rw [copyEntryFollow.eq_def, if_pos rfl]

theorem copyEntryFollow_symlink (dst : List (String × FsEntry))
    (name t : String) (hg : ¬ name = ".git") :
    copyEntryFollow dst name (.symlink t) = some dst := by
  rw [copyEntryFollow.eq_def, if_neg hg]

theorem copyEntryFollow_file_eq (dst : List (String × FsEntry))
    (name : String) (c : List Nat) (hg : ¬ name = ".git") :
    copyEntryFollow dst name (.file c)
      = match lookupName dst name with
        | some (.dir _) => none
        | _ => some (setName dst name (.file c)) := by
  rw [copyEntryFollow.eq_def, if_neg hg]

theorem copyEntryFollow_dir_eq (dst : List (String × FsEntry))
    (name : String) (cs : List (String × FsEntry)) (hg : ¬ name = ".git") :
    copyEntryFollow dst name (.dir cs)
      = match lookupName dst name with
        | some (.file _) => none
        | some (.symlink t) =>
          match lookupName dst t with
          | some (.dir tcs) =>
            match copyDirRecursiveFollow cs tcs with
            | none => none
            | some r => some (setName dst t (.dir r))
          | _ => none
        | some (.dir dcs) =>
          match copyDirRecursiveFollow cs dcs with
          | none => none
          | some r => some (setName dst name (.dir r))
        | none =>
          match copyDirRecursiveFollow cs [] with
          | none => none
          | some r => some (setName dst name (.dir r)) := by
  rw [copyEntryFollow.eq_def, if_neg hg]

theorem copyDirFollow_nil (dst : List (String × FsEntry)) :
    copyDirRecursiveFollow [] dst = some dst := by
  rw [copyDirRecursiveFollow.eq_def]

theorem copyDirFollow_cons (n : String) (e : FsEntry)
    (rest dst : List (String × FsEntry)) :
    copyDirRecursiveFollow ((n, e) :: rest) dst
      = match copyEntryFollow dst n e with
        | none => none
        | some dst2 => copyDirRecursiveFollow rest dst2 := by
  rw [copyDirRecursiveFollow.eq_def]

theorem wfChildrenNoSym_cons (n : String) (e : FsEntry)
    (rest : List (String × FsEntry)) :
    noSymlinkChildren ((n, e) :: rest)
      = (noSymlinkEntry e && noSymlinkChildren rest) := by
  rw [noSymlinkChildren.eq_def]

theorem noSymlinkEntry_dir (cs : List (String × FsEntry)) :
    noSymlinkEntry (.dir cs) = noSymlinkChildren cs := by
  rw [noSymlinkEntry.eq_def]

/-- In a symlink-free listing every lookup yields a symlink-free
entry. -/
theorem noSymlinkEntry_of_lookup (l : List (String × FsEntry)) (n : String)
    (e : FsEntry) (h : noSymlinkChildren l = true)
    (hl : lookupName l n = some e) : noSymlinkEntry e = true := by
  induction l with
  | nil => exact absurd hl (by simp [lookupName])
  | cons p rest ih =>
    obtain ⟨m, e₀⟩ := p
    rw [wfChildrenNoSym_cons] at h
    simp only [Bool.and_eq_true] at h
    by_cases hm : m = n
    · simp only [lookupName, if_pos hm] at hl
      cases hl
      exact h.1
    · simp only [lookupName, if_neg hm] at hl
      exact ih h.2 hl

/-- Writing a symlink-free entry into a symlink-free listing keeps it
symlink-free. -/
theorem noSymlink_setName (l : List (String × FsEntry)) (n : String)
    (e : FsEntry) (h : noSymlinkChildren l = true)
    (he : noSymlinkEntry e = true) :
    noSymlinkChildren (setName l n e) = true := by
  induction l with
  | nil =>
    simp only [setName, wfChildrenNoSym_cons]
    simp [he, noSymlinkChildren]
  | cons p rest ih =>
    obtain ⟨m, e₀⟩ := p
    rw [wfChildrenNoSym_cons] at h
    simp only [Bool.and_eq_true] at h
    by_cases hm : m = n
    · simp only [setName, if_pos hm, wfChildrenNoSym_cons]
      simp [he, h.2]
    · simp only [setName, if_neg hm, wfChildrenNoSym_cons]
      simp [h.1, ih h.2]

theorem noSymlinkChildren_nil : noSymlinkChildren [] = true := by
  rw [noSymlinkChildren.eq_def]

theorem noSymlinkEntry_file (c : List Nat) :
    noSymlinkEntry (.file c) = true := by
  rw [noSymlinkEntry.eq_def]

theorem noSymlinkEntry_symlink (t : String) :
    noSymlinkEntry (.symlink t) = false := by
  rw [noSymlinkEntry.eq_def]

mutual

/-- On a destination without symbolic links, the link-following engine
agrees with the tree engine entry-wise, and every successful step keeps
the destination symlink-free. -/
theorem copyEntryFollow_eq_and_noSymlink : ∀ (e : FsEntry)
    (d : List (String × FsEntry)) (n : String),
    noSymlinkChildren d = true →
    copyEntryFollow d n e = copyEntry d n e
    ∧ ∀ d', copyEntry d n e = some d' → noSymlinkChildren d' = true
  | .symlink t, d, n, h => by
    by_cases hg : n = ".git"
    · subst hg
      refine ⟨by rw [copyEntryFollow_git, copyEntry_git], ?_⟩
      intro d' hd'
      rw [copyEntry_git] at hd'
      cases hd'
      exact h
    · refine ⟨by rw [copyEntryFollow_symlink d n t hg,
        copyEntry_symlink d n t hg], ?_⟩
      intro d' hd'
      rw [copyEntry_symlink d n t hg] at hd'
      cases hd'
      exact h
  | .file c, d, n, h => by
    by_cases hg : n = ".git"
    · subst hg
      refine ⟨by rw [copyEntryFollow_git, copyEntry_git], ?_⟩
      intro d' hd'
      rw [copyEntry_git] at hd'
      cases hd'
      exact h
    · refine ⟨by rw [copyEntryFollow_file_eq d n c hg,
        copyEntry_file_eq d n c hg], ?_⟩
      intro d' hd'
      rw [copyEntry_file_eq d n c hg] at hd'
      cases hl : lookupName d n with
      | none =>
        rw [hl] at hd'
        cases hd'
        exact noSymlink_setName d n (.file c) h (noSymlinkEntry_file c)
      | some e₀ =>
        cases e₀ with
        | dir dcs =>
          rw [hl] at hd'
          cases hd'
        | file c₀ =>
          rw [hl] at hd'
          cases hd'
          exact noSymlink_setName d n (.file c) h (noSymlinkEntry_file c)
        | symlink t =>
          rw [hl] at hd'
          cases hd'
          exact noSymlink_setName d n (.file c) h (noSymlinkEntry_file c)
  | .dir cs, d, n, h => by
    by_cases hg : n = ".git"
    · subst hg
      refine ⟨by rw [copyEntryFollow_git, copyEntry_git], ?_⟩
      intro d' hd'
      rw [copyEntry_git] at hd'
      cases hd'
      exact h
    · constructor
      · rw [copyEntryFollow_dir_eq d n cs hg, copyEntry_dir_eq d n cs hg]
        cases hl : lookupName d n with
        | none =>
          show (match copyDirRecursiveFollow cs [] with
              | none => none
              | some r => some (setName d n (.dir r)))
            = (match copyDirRecursive cs [] with
              | none => none
              | some r => some (setName d n (.dir r)))
          rw [(copyDirFollow_eq_and_noSymlink cs [] noSymlinkChildren_nil).1]
        | some e₀ =>
          cases e₀ with
          | file c₀ => rfl
          | symlink t =>
            have := noSymlinkEntry_of_lookup d n _ h hl
            rw [noSymlinkEntry_symlink] at this
            cases this
          | dir dcs =>
            have hdcs : noSymlinkChildren dcs = true := by
              have := noSymlinkEntry_of_lookup d n _ h hl
              rwa [noSymlinkEntry_dir] at this
            show (match copyDirRecursiveFollow cs dcs with
                | none => none
                | some r => some (setName d n (.dir r)))
              = (match copyDirRecursive cs dcs with
                | none => none
                | some r => some (setName d n (.dir r)))
            rw [(copyDirFollow_eq_and_noSymlink cs dcs hdcs).1]
      · intro d' hd'
        rw [copyEntry_dir_eq d n cs hg] at hd'
        cases hl : lookupName d n with
        | none =>
          rw [hl] at hd'
          cases hr : copyDirRecursive cs [] with
          | none =>
            rw [hr] at hd'
            cases hd'
          | some r =>
            rw [hr] at hd'
            cases hd'
            have hr' : noSymlinkChildren r = true :=
              (copyDirFollow_eq_and_noSymlink cs []
                noSymlinkChildren_nil).2 r hr
            exact noSymlink_setName d n (.dir r) h
              (by rw [noSymlinkEntry_dir]; exact hr')
        | some e₀ =>
          cases e₀ with
          | file c₀ =>
            rw [hl] at hd'
            cases hd'
          | symlink t =>
            rw [hl] at hd'
            cases hd'
          | dir dcs =>
            have hdcs : noSymlinkChildren dcs = true := by
              have := noSymlinkEntry_of_lookup d n _ h hl
              rwa [noSymlinkEntry_dir] at this
            rw [hl] at hd'
            have h2 : (match copyDirRecursive cs dcs with
                | none => none
                | some r => some (setName d n (.dir r))) = some d' := hd'
            cases hr : copyDirRecursive cs dcs with
            | none =>
              rw [hr] at h2
              cases h2
            | some r =>
              rw [hr] at h2
              cases h2
              have hr' : noSymlinkChildren r = true :=
                (copyDirFollow_eq_and_noSymlink cs dcs hdcs).2 r hr
              exact noSymlink_setName d n (.dir r) h
                (by rw [noSymlinkEntry_dir]; exact hr')

/-- On a destination without symbolic links, the link-following engine
agrees with the tree engine, and a successful run leaves the
destination symlink-free. -/
theorem copyDirFollow_eq_and_noSymlink : ∀ (s d : List (String × FsEntry)),
    noSymlinkChildren d = true →
    copyDirRecursiveFollow s d = copyDirRecursive s d
    ∧ ∀ d', copyDirRecursive s d = some d' → noSymlinkChildren d' = true
  | [], d, h => by
    refine ⟨by rw [copyDirFollow_nil, copyDir_nil], ?_⟩
    intro d' hd'
    rw [copyDir_nil] at hd'
    cases hd'
    exact h
  | (n, e) :: rest, d, h => by
    have he := copyEntryFollow_eq_and_noSymlink e d n h
    rw [copyDirFollow_cons, copyDir_cons, he.1]
    cases hc : copyEntry d n e with
    | none =>
      exact ⟨rfl, fun d' hd' => by cases hd'⟩
    | some d₁ =>
      have hd₁ : noSymlinkChildren d₁ = true := he.2 d₁ hc
      have ih := copyDirFollow_eq_and_noSymlink rest d₁ hd₁
      exact ⟨ih.1, fun d' hd' => ih.2 d' hd'⟩

end

/-- The scratch checkout of the symlink scenario: the agent replaced
the destination's directory-symlink `d` by a real directory holding a
new file `d/x`. -/
def exScratchLink : List (String × FsEntry) :=
  [("d", .dir [("x", .file [1])])]

/-- The matching destination: `d` is a symbolic link to the (empty)
directory `e`. -/
def exDestLink : List (String × FsEntry) :=
  [("d", .symlink "e"), ("e", .dir [])]

/-- The destination after the link-following promotion: the walk went
through the link, so the copy of `d/x` landed in `e`. -/
def exPromotedLink : List (String × FsEntry) :=
  [("d", .symlink "e"), ("e", .dir [("x", .file [1])])]

/-- C3, counterexample: only `d/x` was added (every other path agrees
between scratch and destination), yet the promotion — whose
`create_dir_all` follows the destination's directory-symlink `d → e` —
succeeds and creates the file `e/x`, a destination path outside `F`
that did not keep its previous (absent) content. -/
theorem apply_changes_frame_counterexample :
    (∀ p : List String, ".git" ∉ p → p ∉ [[("d" : String), "x"]] →
        fileAt exScratchLink p = fileAt exDestLink p)
    ∧ (∀ p ∈ [[("d" : String), "x"]],
        (".git" : String) ∉ p ∧ (fileAt exScratchLink p).isSome = true)
    ∧ wfChildren exScratchLink = true
    ∧ apply_changesFollow exScratchLink exDestLink = some exPromotedLink
    ∧ ["e", "x"] ∉ [[("d" : String), "x"]]
    ∧ (".git" : String) ∉ (["e", "x"] : List String)
    ∧ fileAt exDestLink ["e", "x"] = none
    ∧ fileAt exPromotedLink ["e", "x"] = some [1] := by
  refine ⟨?_, ?_, rfl, rfl, by simp, by simp, rfl, rfl⟩
  · intro p hgit hpF
    match p with
    | [] => rfl
    | m :: q =>
      by_cases hd : m = "d"
      · subst hd
        rw [fileAt_cons, fileAt_cons]
        show entryFileAt (.dir [("x", FsEntry.file [1])]) q
            = entryFileAt (.symlink "e") q
        rw [entryFileAt_symlink, entryFileAt_dir]
        match q with
        | [] => rfl
        | a :: q' =>
          by_cases hx : a = "x"
          · subst hx
            match q' with
            | [] => exact absurd (by simp) hpF
            | b :: q'' => rfl
          · have hx' : ¬ ("x" : String) = a := fun hh => hx hh.symm
            rw [fileAt_cons]
            have h0 : lookupName [("x", FsEntry.file [1])] a = none := by
              simp [lookupName, hx']
            rw [h0]
      · have hd' : ¬ ("d" : String) = m := fun hh => hd hh.symm
        by_cases he : m = "e"
        · subst he
          rw [fileAt_cons, fileAt_cons]
          show (none : Option (List Nat)) = entryFileAt (.dir []) q
          rw [entryFileAt_dir, fileAt_nil]
        · have he' : ¬ ("e" : String) = m := fun hh => he hh.symm
          have h1 : lookupName exScratchLink m = none := by
            simp [exScratchLink, lookupName, hd']
          have h2 : lookupName exDestLink m = none := by
            simp [exDestLink, lookupName, hd', he']
          rw [fileAt_cons, fileAt_cons, h1, h2]
  · intro p hp
    simp only [List.mem_singleton] at hp
    subst hp
    exact ⟨by simp, rfl⟩

/-- C3, amended: for a scratch checkout in which only the files `F`
were added or modified (every path outside `F` holds the same file
content as the destination, or none), and a destination tree holding no
symbolic links — so the link-following walk cannot escape the copied
subtree — a successful promotion yields a destination whose content at
every `f ∈ F` equals the scratch content there; destination files
outside `F` keep their previous content, and every path through a
directory named exactly `.git` is left untouched. -/
theorem apply_changes_promotes_and_frames
    (s d d' : List (String × FsEntry)) (F : List (List String))
    (hwf : wfChildren s = true)
    (hnosym : noSymlinkChildren d = true)
    (hc : apply_changesFollow s d = some d')
    (hgitF : ∀ p ∈ F, ".git" ∉ p)
    (hin : ∀ p ∈ F, (fileAt s p).isSome = true)
    (honly : ∀ p : List String, ".git" ∉ p → p ∉ F →
      fileAt s p = fileAt d p) :
    (∀ p ∈ F, fileAt d' p = fileAt s p)
    ∧ (∀ p : List String, p ∉ F → ".git" ∉ p → fileAt d' p = fileAt d p)
    ∧ (∀ p : List String, ".git" ∈ p → fileAt d' p = fileAt d p) := by
  have hc2 : copyDirRecursiveFollow s d = some d' := hc
  rw [(copyDirFollow_eq_and_noSymlink s d hnosym).1] at hc2
  have master := copyDir_fileAt_master s d d' hwf hc2
  refine ⟨?_, ?_, ?_⟩
  · intro p hpF
    have hgit : ¬ (".git" ∈ p) := hgitF p hpF
    rw [master p, if_neg hgit]
    cases ho : fileAt s p with
    | none =>
      have := hin p hpF
      rw [ho] at this
      cases this
    | some c => rfl
  · intro p hpF hgit
    rw [master p, if_neg hgit, honly p hgit hpF]
    cases fileAt d p with
    | none => rfl
    | some c => rfl
  · intro p hgit
    rw [master p, if_pos hgit]

/-- A small scratch checkout for the concrete promotion scenario: the
destination's file `g` unchanged, a new file `f`. -/
def exScratch : List (String × FsEntry) :=
  [("g", .file [5]), ("f", .file [1])]

/-- The matching destination tree, holding only `g`. -/
def exDest : List (String × FsEntry) := [("g", .file [5])]

/-- Witness for C3 at the concrete scenario: promoting `exScratch`
(where only `f` was added) onto `exDest` gives `f` the scratch content
and leaves `g` untouched. -/
theorem apply_changes_promotes_witness :
    fileAt [("g", FsEntry.file [5]), ("f", FsEntry.file [1])] ["f"]
      = some [1]
    ∧ fileAt [("g", FsEntry.file [5]), ("f", FsEntry.file [1])] ["g"]
      = some [5] := by
  have honly : ∀ p : List String, ".git" ∉ p → p ∉ [[("f" : String)]] →
      fileAt exScratch p = fileAt exDest p := by
    intro p hgit hpF
    match p with
    | [] => rfl
    | m :: q =>
      by_cases hg : m = "g"
      · subst hg
        rfl
      · by_cases hf : m = "f"
        · subst hf
          cases q with
          | nil => exact absurd (by simp) hpF
          | cons a q' => rfl
        · have hg' : ¬ ("g" : String) = m := fun hh => hg hh.symm
          have hf' : ¬ ("f" : String) = m := fun hh => hf hh.symm
          have h1 : lookupName exScratch m = none := by
            simp [exScratch, lookupName, hg', hf']
          have h2 : lookupName exDest m = none := by
            simp [exDest, lookupName, hg']
          rw [fileAt_cons, fileAt_cons, h1, h2]
  have h := apply_changes_promotes_and_frames exScratch exDest
      [("g", FsEntry.file [5]), ("f", FsEntry.file [1])] [["f"]] rfl rfl rfl
      (by
        intro p hp
        simp only [List.mem_singleton] at hp
        subst hp
        simp)
      (by
        intro p hp
        simp only [List.mem_singleton] at hp
        subst hp
        rfl)
      honly
  constructor
  · have hf := h.1 ["f"] (by simp)
    rw [hf]
    rfl
  · have hg := h.2.1 ["g"] (by simp) (by simp)
    rw [hg]
    rfl

/-- C8: a successful promotion run is idempotent — applying the same
unchanged scratch checkout a second time succeeds and reproduces the
destination tree of the first run exactly (in particular, byte-identical
destination files). -/
theorem apply_changes_idempotent (worktree target d' : List (String × FsEntry))
    (hwf : wfChildren worktree = true)
    (h : apply_changes worktree target = some d') :
    apply_changes worktree d' = some d' :=
  copyDir_idem worktree target d' hwf h

/-- A scratch checkout exercising every walker case: a file overwrite,
a nested directory, a `.git` directory, a symbolic link. -/
def exWorktree : List (String × FsEntry) :=
  [("f", .file [1]), ("d", .dir [("g", .file [2])]),
   (".git", .dir [("c", .file [7])]), ("s", .symlink "t")]

/-- A destination for `exWorktree` with an old `f` and an extra `h`. -/
def exTarget : List (String × FsEntry) :=
  [("f", .file [9]), ("h", .file [3])]

/-- The destination after promoting `exWorktree` onto `exTarget`. -/
def exPromoted : List (String × FsEntry) :=
  [("f", .file [1]), ("h", .file [3]), ("d", .dir [("g", .file [2])])]

/-- Witness for C8 at a concrete input: the first promotion produces
`exPromoted`, and promoting again onto `exPromoted` reproduces it. -/
theorem apply_changes_idempotent_witness :
    wfChildren exWorktree = true
    ∧ apply_changes exWorktree exTarget = some exPromoted
    ∧ apply_changes exWorktree exPromoted = some exPromoted :=
  ⟨rfl, rfl, apply_changes_idempotent exWorktree exTarget exPromoted rfl rfl⟩

end Parari
